import Mathlib

/-!
Verification of the `compact_strings` crate: compact containers storing a
sequence of byte strings contiguously in one `data` buffer with separate
per-element metadata.

Modelling conventions (fixed throughout):
* Target is the crate's de-facto deployment: a 64-bit little-endian machine,
  so a `usize` metadata slot viewed through `bytemuck::bytes_of` has byte `j`
  equal to `slot / 256 ^ j % 256`, and `usize::BITS / 8 = 8`.
* Byte strings are `List Nat`, each byte below 256 in real inputs; `usize`
  values are `Nat`.  Allocation failure aborts the process and is outside the
  model.  The `-=` updates in the removal routines never underflow in any
  state evaluated below, so they are modelled by truncated `Nat` subtraction.
* Checked slice accesses (`data.get(a..b)`) return `Option`; the crate's
  default build performs the same accesses unchecked (undefined behaviour
  when out of bounds), which the model renders as `none` — every in-bounds
  access agrees with the unchecked build.
* A `panic!` guard (out-of-bounds index to a removal operation) is modelled
  by `Option`-returning `...Checked` wrappers: `none` means the operation
  panicked, and since the source checks the index before any mutation the
  container is unchanged in that case.
-/

/-- Rust checked range slicing `l.get(s..e)`: `none` when the range is
invalid or out of bounds, otherwise the sub-list `l[s..e]`. -/
def listSlice (l : List Nat) (s e : Nat) : Option (List Nat) :=
  if s ≤ e ∧ e ≤ l.length then some ((l.drop s).take (e - s)) else none

/-- The per-element record of `src/metadata.rs`: starting offset and length
of one byte string inside the `data` buffer. -/
structure Metadata where
  start : Nat
  len : Nat
  deriving DecidableEq, Repr

/-- Rust `iter_mut().skip(i)` followed by an in-place update: applies `f` to
every element at position `≥ i`, leaving earlier elements unchanged. -/
def applyFrom (f : α → α) : Nat → List α → List α
  | _, [] => []
  | 0, a :: rest => f a :: applyFrom f 0 rest
  | i + 1, a :: rest => a :: applyFrom f i rest

/-- `src/compact_bytestrings.rs`: byte buffer plus `(start, len)` metadata. -/
structure CompactBytestrings where
  data : List Nat
  meta : List Metadata
  deriving DecidableEq, Repr

/-- `CompactBytestrings::new`. -/
def CompactBytestrings.new : CompactBytestrings := ⟨[], []⟩

/-- `CompactBytestrings::push`: records `(data.len(), bytes.len())` and
appends the bytes to `data`. -/
def CompactBytestrings.push (c : CompactBytestrings) (s : List Nat) :
    CompactBytestrings :=
  ⟨c.data ++ s, c.meta ++ [⟨c.data.length, s.length⟩]⟩

/-- `CompactBytestrings::len`. -/
def CompactBytestrings.len (c : CompactBytestrings) : Nat := c.meta.length

/-- Body shared by `CompactBytestrings::get` and the forward iterator step:
look up the metadata entry and slice `data[start..start+len]` (checked). -/
def CompactBytestrings.getFrom (data : List Nat) (metas : List Metadata)
    (i : Nat) : Option (List Nat) :=
  match metas[i]? with
  | none => none
  | some m => listSlice data m.start (m.start + m.len)

/-- `CompactBytestrings::get`. -/
def CompactBytestrings.get (c : CompactBytestrings) (i : Nat) :
    Option (List Nat) :=
  CompactBytestrings.getFrom c.data c.meta i

/-- `CompactBytestrings::remove` after its bounds check has passed: removes
`meta[i]`, subtracts the removed entry's `start` field (exactly as the
source's `meta.start -= start` writes it) from every later entry, and
splices the removed byte range out of `data`. -/
def CompactBytestrings.removeCore (c : CompactBytestrings) (i : Nat) :
    CompactBytestrings :=
  let m := c.meta.getD i ⟨0, 0⟩
  let meta2 := applyFrom (fun mm => ⟨mm.start - m.start, mm.len⟩) i
    (c.meta.eraseIdx i)
  ⟨c.data.take m.start ++ c.data.drop (m.start + m.len), meta2⟩

/-- `CompactBytestrings::remove` including its panic guard. -/
def CompactBytestrings.removeChecked (c : CompactBytestrings) (i : Nat) :
    Option CompactBytestrings :=
  if i < c.len then some (c.removeCore i) else none

/-- `CompactBytestrings::ignore` including its panic guard: drops only the
metadata entry. -/
def CompactBytestrings.ignoreChecked (c : CompactBytestrings) (i : Nat) :
    Option CompactBytestrings :=
  if i < c.len then some ⟨c.data, c.meta.eraseIdx i⟩ else none

/-- Forward iteration of `compact_bytestrings::Iter`: each `next` slices the
current metadata entry out of `data`; a failed (out-of-bounds) slice yields
`None` and ends the iteration. -/
def CompactBytestrings.iterFrom (data : List Nat) :
    List Metadata → List (List Nat)
  | [] => []
  | m :: rest =>
    match listSlice data m.start (m.start + m.len) with
    | none => []
    | some s => s :: CompactBytestrings.iterFrom data rest

/-- The full sequence produced by `iter()` on a `CompactBytestrings`. -/
def CompactBytestrings.iterList (c : CompactBytestrings) : List (List Nat) :=
  CompactBytestrings.iterFrom c.data c.meta

/-- Pushing a whole sequence into a fresh `CompactBytestrings`. -/
def CompactBytestrings.fromList (ss : List (List Nat)) : CompactBytestrings :=
  ss.foldl CompactBytestrings.push CompactBytestrings.new

/-- Little-endian value of a byte list, as produced by
`bytemuck::cast::<[u8; 8], usize>` on a 64-bit little-endian target. -/
def leVal : List Nat → Nat
  | [] => 0
  | b :: rest => b + 256 * leVal rest

/-- Byte `j` of a `usize` slot as seen through `bytemuck::bytes_of` on a
little-endian target. -/
def slotByte (s j : Nat) : Nat := s / 256 ^ j % 256

/-- The inline test used by `get`, `get_unchecked`, `remove` and `Iter::next`
in `src/fixed_compact_bytestrings.rs`:
`data[0] & 0b1000_1111 == 0b1000_0000`. -/
def isInlineTag (s : Nat) : Bool := Nat.land (slotByte s 0) 143 == 128

/-- Inline length decode: `(data[0] & (0b111 << 4)) >> 4`. -/
def inlineLenOf (s : Nat) : Nat := Nat.shiftRight (Nat.land (slotByte s 0) 112) 4

/-- Inline payload decode: `&data[1..=len]`. -/
def inlineContent (s : Nat) : List Nat :=
  (List.range (inlineLenOf s)).map fun i => slotByte s (i + 1)

/-- The slot built by `FixedCompactBytestrings::push` for a short string:
byte 0 is `0b1000_0000 | (len << 4)`, bytes `1..=len` hold the payload,
the rest are zero; the array is then cast to a `usize`. -/
def encodeInline (s : List Nat) : Nat := leVal ((128 + 16 * s.length) :: s)

/-- The forward scan shared by `get`, `remove` and `Iter::next` of the fixed
engine: the first slot in `starts` whose byte 0 fails the inline pattern,
defaulting to `data.len()`. -/
def scanEnd (starts : List Nat) (dlen : Nat) : Nat :=
  (starts.find? fun n => !isInlineTag n).getD dlen

/-- `src/fixed_compact_bytestrings.rs`: byte buffer plus machine-word slots
that hold either a start offset or an inline-encoded short string. -/
structure FixedCompactBytestrings where
  data : List Nat
  starts : List Nat
  deriving DecidableEq, Repr

/-- `FixedCompactBytestrings::new`. -/
def FixedCompactBytestrings.new : FixedCompactBytestrings := ⟨[], []⟩

/-- `FixedCompactBytestrings::push`: strings shorter than the 8-byte word
are inline-encoded into the slot, longer ones append to `data` and store
the old `data.len()` as a plain offset slot. -/
def FixedCompactBytestrings.push (c : FixedCompactBytestrings) (s : List Nat) :
    FixedCompactBytestrings :=
  if s.length < 8 then ⟨c.data, c.starts ++ [encodeInline s]⟩
  else ⟨c.data ++ s, c.starts ++ [c.data.length]⟩

/-- `FixedCompactBytestrings::len`. -/
def FixedCompactBytestrings.len (c : FixedCompactBytestrings) : Nat :=
  c.starts.length

/-- Body of `FixedCompactBytestrings::get` on explicit buffers. -/
def FixedCompactBytestrings.getFrom (data starts : List Nat) (i : Nat) :
    Option (List Nat) :=
  match starts[i]? with
  | none => none
  | some s =>
    if isInlineTag s then some (inlineContent s)
    else listSlice data s (scanEnd (starts.drop (i + 1)) data.length)

/-- `FixedCompactBytestrings::get`. -/
def FixedCompactBytestrings.get (c : FixedCompactBytestrings) (i : Nat) :
    Option (List Nat) :=
  FixedCompactBytestrings.getFrom c.data c.starts i

/-- `FixedCompactBytestrings::remove` after its bounds check has passed,
exactly as written in the source: the slot is removed first, the forward
scan and the re-basing loop then both run with `skip(index + 1)` over the
already-shortened slot vector, and the re-basing subtracts from every
subsequent slot, inline or not. -/
def FixedCompactBytestrings.removeCore (c : FixedCompactBytestrings) (i : Nat) :
    FixedCompactBytestrings :=
  let start := c.starts.getD i 0
  let starts1 := c.starts.eraseIdx i
  if isInlineTag start then ⟨c.data, starts1⟩
  else
    let next := scanEnd (starts1.drop (i + 1)) c.data.length
    let len := next - start
    ⟨c.data.take start ++ c.data.drop (start + len),
      applyFrom (fun s => s - len) (i + 1) starts1⟩

/-- `FixedCompactBytestrings::remove` including its panic guard. -/
def FixedCompactBytestrings.removeChecked (c : FixedCompactBytestrings)
    (i : Nat) : Option FixedCompactBytestrings :=
  if i < c.len then some (c.removeCore i) else none

/-- Forward iteration of `fixed_compact_bytestrings::Iter`: `next` decodes
inline slots directly and resolves an offset slot's end by scanning the
remaining slots (the iterator's `data` view is never shrunk by `next`). -/
def FixedCompactBytestrings.iterFrom (data : List Nat) :
    List Nat → List (List Nat)
  | [] => []
  | s :: rest =>
    if isInlineTag s then
      inlineContent s :: FixedCompactBytestrings.iterFrom data rest
    else
      match listSlice data s (scanEnd rest data.length) with
      | none => []
      | some out => out :: FixedCompactBytestrings.iterFrom data rest

/-- The full sequence produced by forward iteration. -/
def FixedCompactBytestrings.iterList (c : FixedCompactBytestrings) :
    List (List Nat) :=
  FixedCompactBytestrings.iterFrom c.data c.starts

/-- Backward consumption via `Iter::next_back`, processing the reversed slot
list: `next_back` tests only the high bit `data[0] & 0b1000_0000 != 0` (not
the full inline pattern used by `next`), slices `data[start..]` against the
current shrinking view for offset slots, and then shrinks the view to
`data[..start]`. -/
def FixedCompactBytestrings.backFrom (data : List Nat) :
    List Nat → List (List Nat)
  | [] => []
  | s :: rest =>
    if Nat.land (slotByte s 0) 128 != 0 then
      inlineContent s :: FixedCompactBytestrings.backFrom data rest
    else
      match listSlice data s data.length with
      | none => []
      | some out => out :: FixedCompactBytestrings.backFrom (data.take s) rest

/-- The full sequence produced by exhausting the iterator from the back. -/
def FixedCompactBytestrings.backList (c : FixedCompactBytestrings) :
    List (List Nat) :=
  FixedCompactBytestrings.backFrom c.data c.starts.reverse

/-- `impl Clone for FixedCompactBytestrings` as written in the source: it
iterates the elements, pushes each element's LENGTH as the new slot value
(`meta.push(bytes.len())`) and appends the bytes to the new `data`. -/
def FixedCompactBytestrings.clone (c : FixedCompactBytestrings) :
    FixedCompactBytestrings :=
  ⟨c.iterList.flatten, c.iterList.map List.length⟩

/-- Pushing a whole sequence into a fresh `FixedCompactBytestrings`. -/
def FixedCompactBytestrings.fromList (ss : List (List Nat)) :
    FixedCompactBytestrings :=
  ss.foldl FixedCompactBytestrings.push FixedCompactBytestrings.new

/-- `src/lib.rs`: the standalone `CompactStrings` with `(start, len)` pairs
and the swap-removal operations.  Element payloads are byte lists (the UTF-8
bytes of the stored strings). -/
structure LibCompactStrings where
  data : List Nat
  meta : List Metadata
  deriving DecidableEq, Repr

/-- `lib.rs CompactStrings::push`. -/
def LibCompactStrings.push (c : LibCompactStrings) (s : List Nat) :
    LibCompactStrings :=
  ⟨c.data ++ s, c.meta ++ [⟨c.data.length, s.length⟩]⟩

/-- `lib.rs CompactStrings::len`. -/
def LibCompactStrings.len (c : LibCompactStrings) : Nat := c.meta.length

/-- `lib.rs CompactStrings::get`: the same checked lookup-and-slice as the
bytestring engine (the final `from_utf8_unchecked` does not change bytes). -/
def LibCompactStrings.get (c : LibCompactStrings) (i : Nat) :
    Option (List Nat) :=
  CompactBytestrings.getFrom c.data c.meta i

/-- Rust `Vec::swap_remove` on a list: the element at `i` is replaced by the
last element and the last position is dropped. -/
def listSwapRemove (l : List Metadata) (i : Nat) : List Metadata :=
  (l.set i (l.getD (l.length - 1) ⟨0, 0⟩)).dropLast

/-- `lib.rs CompactStrings::swap_remove` after its assertion has passed:
swap-removes `meta[i]`, subtracts the removed LENGTH from the `start` of
every metadata entry at position `≥ i`, and splices the removed byte range
out of `data`. -/
def LibCompactStrings.swapRemoveCore (c : LibCompactStrings) (i : Nat) :
    LibCompactStrings :=
  let m := c.meta.getD i ⟨0, 0⟩
  let meta2 := applyFrom (fun mm => ⟨mm.start - m.len, mm.len⟩) i
    (listSwapRemove c.meta i)
  ⟨c.data.take m.start ++ c.data.drop (m.start + m.len), meta2⟩

/-- `lib.rs CompactStrings::swap_ignore` after its assertion has passed:
swap-removes only the metadata entry. -/
def LibCompactStrings.swapIgnoreCore (c : LibCompactStrings) (i : Nat) :
    LibCompactStrings :=
  ⟨c.data, listSwapRemove c.meta i⟩

/-- `lib.rs CompactStrings::remove` after its assertion has passed (this one
subtracts the removed length, unlike the bytestring engine's `remove`). -/
def LibCompactStrings.removeCore (c : LibCompactStrings) (i : Nat) :
    LibCompactStrings :=
  let m := c.meta.getD i ⟨0, 0⟩
  let meta2 := applyFrom (fun mm => ⟨mm.start - m.len, mm.len⟩) i
    (c.meta.eraseIdx i)
  ⟨c.data.take m.start ++ c.data.drop (m.start + m.len), meta2⟩

/-- `lib.rs CompactStrings::remove` including its assertion. -/
def LibCompactStrings.removeChecked (c : LibCompactStrings) (i : Nat) :
    Option LibCompactStrings :=
  if c.len > i then some (c.removeCore i) else none

/-- `lib.rs CompactStrings::ignore` including its assertion. -/
def LibCompactStrings.ignoreChecked (c : LibCompactStrings) (i : Nat) :
    Option LibCompactStrings :=
  if c.len > i then some ⟨c.data, c.meta.eraseIdx i⟩ else none

/-- `lib.rs CompactStrings::swap_remove` including its assertion. -/
def LibCompactStrings.swapRemoveChecked (c : LibCompactStrings) (i : Nat) :
    Option LibCompactStrings :=
  if c.len > i then some (c.swapRemoveCore i) else none

/-- `lib.rs CompactStrings::swap_ignore` including its assertion. -/
def LibCompactStrings.swapIgnoreChecked (c : LibCompactStrings) (i : Nat) :
    Option LibCompactStrings :=
  if c.len > i then some (c.swapIgnoreCore i) else none

/-- Pushing a whole sequence into a fresh `lib.rs CompactStrings`. -/
def LibCompactStrings.fromList (ss : List (List Nat)) : LibCompactStrings :=
  ss.foldl LibCompactStrings.push ⟨[], []⟩

/-- Modelled from the spec: UTF-8 continuation byte test.  The validator
`core::str::from_utf8` is not part of this repository; the spec requires
standard UTF-8 validity (rejecting, e.g., a standalone `0xFF` byte). -/
def utf8Cont (b : Nat) : Bool := 128 ≤ b && b < 192

/-- Modelled from the spec: standard UTF-8 validity (RFC 3629 table) of a
byte list, standing in for `core::str::from_utf8(..).is_ok()`. -/
def validUtf8 : List Nat → Bool
  | [] => true
  | b :: rest =>
    if b < 128 then validUtf8 rest
    else if b < 194 then false
    else if b < 224 then
      match rest with
      | b1 :: r => utf8Cont b1 && validUtf8 r
      | [] => false
    else if b < 240 then
      match rest with
      | b1 :: b2 :: r =>
        (if b == 224 then 160 ≤ b1 && b1 < 192
          else if b == 237 then 128 ≤ b1 && b1 < 160
          else utf8Cont b1) && utf8Cont b2 && validUtf8 r
      | _ => false
    else if b < 245 then
      match rest with
      | b1 :: b2 :: b3 :: r =>
        (if b == 240 then 144 ≤ b1 && b1 < 192
          else if b == 244 then 128 ≤ b1 && b1 < 144
          else utf8Cont b1) && utf8Cont b2 && utf8Cont b3 && validUtf8 r
      | _ => false
    else false

/-- `src/compact_strings.rs`: the UTF-8 wrapper around the bytestring
engine (composition, `pub(crate) CompactBytestrings`). -/
structure CompactStringsW where
  inner : CompactBytestrings
  deriving DecidableEq, Repr

/-- `impl TryFrom<CompactBytestrings> for CompactStrings`: validates every
iterated element and wraps the unchanged engine on success; `none` models
the `Utf8Error` return. -/
def CompactStringsW.tryFrom (value : CompactBytestrings) :
    Option CompactStringsW :=
  if value.iterList.all validUtf8 then some ⟨value⟩ else none

/-- `compact_strings.rs CompactStrings::get` (byte content of the returned
`&str`). -/
def CompactStringsW.get (c : CompactStringsW) (i : Nat) : Option (List Nat) :=
  c.inner.get i

/-- `src/fixed_compact_strings.rs`: the UTF-8 wrapper around the fixed
engine. -/
structure FixedCompactStringsW where
  inner : FixedCompactBytestrings
  deriving DecidableEq, Repr

/-- `impl TryFrom<FixedCompactBytestrings> for FixedCompactStrings`. -/
def FixedCompactStringsW.tryFrom (value : FixedCompactBytestrings) :
    Option FixedCompactStringsW :=
  if value.iterList.all validUtf8 then some ⟨value⟩ else none

/-- `fixed_compact_strings.rs FixedCompactStrings::get` (byte content). -/
def FixedCompactStringsW.get (c : FixedCompactStringsW) (i : Nat) :
    Option (List Nat) :=
  c.inner.get i

/-- Metadata entries produced by pushing the sequence `ss` when the data
buffer already holds `base` bytes. -/
def metasOf : List (List Nat) → Nat → List Metadata
  | [], _ => []
  | s :: rest, base => ⟨base, s.length⟩ :: metasOf rest (base + s.length)

/-- Cumulative byte length of the first `i` strings of `ss`. -/
def sumTake (ss : List (List Nat)) (i : Nat) : Nat :=
  ((ss.take i).map List.length).sum

/-- Bytes appended to the fixed engine's buffer by pushing `ss`: only
elements of length `≥ 8` reach the buffer. -/
def joinLong : List (List Nat) → List Nat
  | [] => []
  | s :: rest => (if s.length < 8 then [] else s) ++ joinLong rest

/-- Slots produced by pushing `ss` into the fixed engine when the data
buffer already holds `base` bytes. -/
def slotsOf : List (List Nat) → Nat → List Nat
  | [], _ => []
  | s :: rest, base =>
    if s.length < 8 then encodeInline s :: slotsOf rest base
    else base :: slotsOf rest (base + s.length)

/-- Every offset slot produced by pushing `ss` from buffer size `base`
avoids the inline tag pattern. -/
def offsetsPatFree : List (List Nat) → Nat → Bool
  | [], _ => true
  | s :: rest, base =>
    if s.length < 8 then offsetsPatFree rest base
    else !isInlineTag base && offsetsPatFree rest (base + s.length)

/-- All bytes of all strings of `ss` fit in a byte. -/
def okBytes (ss : List (List Nat)) : Prop := ∀ s ∈ ss, ∀ b ∈ s, b < 256

/-- `ss` contains an element long enough to need an offset slot. -/
def hasLong (ss : List (List Nat)) : Bool := ss.any fun s => !(s.length < 8)

set_option maxRecDepth 100000

theorem foldl_push_eq (ss : List (List Nat)) : ∀ c : CompactBytestrings,
    ss.foldl CompactBytestrings.push c =
      ⟨c.data ++ ss.flatten, c.meta ++ metasOf ss c.data.length⟩ := by
  induction ss with
  | nil => intro c; simp [metasOf]
  | cons s rest ih =>
    intro c
    rw [List.foldl_cons, ih]
    simp [CompactBytestrings.push, metasOf, List.append_assoc]

theorem fromList_eq (ss : List (List Nat)) :
    CompactBytestrings.fromList ss = ⟨ss.flatten, metasOf ss 0⟩ := by
  rw [CompactBytestrings.fromList, foldl_push_eq]
  rfl

theorem getFrom_metasOf :
    ∀ (ss : List (List Nat)) (data : List Nat) (base i : Nat),
    data.drop base = ss.flatten → base ≤ data.length →
    CompactBytestrings.getFrom data (metasOf ss base) i = ss[i]? := by
  intro ss
  induction ss with
  | nil =>
    intro data base i h hb
    simp [metasOf, CompactBytestrings.getFrom]
  | cons s rest ih =>
    intro data base i h hb
    have hlen : data.length - base = s.length + rest.flatten.length := by
      have := congrArg List.length h
      simpa using this
    have hble : base + s.length ≤ data.length := by omega
    have hdrop : data.drop (base + s.length) = rest.flatten := by
      rw [← List.drop_drop, h]
      exact List.drop_left s rest.flatten
    cases i with
    | zero =>
      simp only [metasOf, CompactBytestrings.getFrom, List.getElem?_cons_zero,
        List.getElem?_cons_zero]
      rw [listSlice, if_pos ⟨Nat.le_add_right _ _, hble⟩]
      have hval : (data.drop base).take (base + s.length - base) = s := by
        rw [Nat.add_sub_cancel_left, h]
        exact List.take_left s rest.flatten
      rw [hval]
    | succ n =>
      simp only [metasOf, CompactBytestrings.getFrom, List.getElem?_cons_succ]
      have := ih data (base + s.length) n hdrop hble
      simpa [CompactBytestrings.getFrom] using this

theorem get_fromList (ss : List (List Nat)) (i : Nat) :
    CompactBytestrings.get (CompactBytestrings.fromList ss) i = ss[i]? := by
  rw [CompactBytestrings.get, fromList_eq]
  exact getFrom_metasOf ss ss.flatten 0 i (by simp) (by simp)

theorem iterFrom_metasOf :
    ∀ (ss : List (List Nat)) (data : List Nat) (base : Nat),
    data.drop base = ss.flatten → base ≤ data.length →
    CompactBytestrings.iterFrom data (metasOf ss base) = ss := by
  intro ss
  induction ss with
  | nil => intro data base h hb; simp [metasOf, CompactBytestrings.iterFrom]
  | cons s rest ih =>
    intro data base h hb
    have hlen : data.length - base = s.length + rest.flatten.length := by
      have := congrArg List.length h
      simpa using this
    have hble : base + s.length ≤ data.length := by omega
    have hdrop : data.drop (base + s.length) = rest.flatten := by
      rw [← List.drop_drop, h]
      exact List.drop_left s rest.flatten
    have hval : (data.drop base).take (base + s.length - base) = s := by
      rw [Nat.add_sub_cancel_left, h]
      exact List.take_left s rest.flatten
    simp only [metasOf, CompactBytestrings.iterFrom]
    rw [listSlice, if_pos ⟨Nat.le_add_right _ _, hble⟩, hval]
    rw [ih data (base + s.length) hdrop hble]

theorem iterList_fromList (ss : List (List Nat)) :
    CompactBytestrings.iterList (CompactBytestrings.fromList ss) = ss := by
  rw [CompactBytestrings.iterList, fromList_eq]
  exact iterFrom_metasOf ss ss.flatten 0 (by simp) (by simp)

theorem leVal_digit :
    ∀ (l : List Nat) (j : Nat), (∀ b ∈ l, b < 256) →
    slotByte (leVal l) j = l.getD j 0 := by
  intro l
  induction l with
  | nil =>
    intro j _
    simp [leVal, slotByte, Nat.zero_div]
  | cons b rest ih =>
    intro j hb
    have hblt : b < 256 := hb b (List.mem_cons_self b rest)
    cases j with
    | zero =>
      simp only [slotByte, leVal, pow_zero, Nat.div_one, List.getD_cons_zero]
      rw [Nat.add_mul_mod_self_left]
      exact Nat.mod_eq_of_lt hblt
    | succ n =>
      simp only [slotByte, leVal, List.getD_cons_succ]
      have h1 : (b + 256 * leVal rest) / 256 ^ (n + 1)
          = leVal rest / 256 ^ n := by
        rw [pow_succ, mul_comm (256 ^ n) 256, ← Nat.div_div_eq_div_mul]
        congr 1
        rw [Nat.add_mul_div_left b (leVal rest) (by norm_num)]
        simp [Nat.div_eq_of_lt hblt]
      rw [h1]
      exact ih n fun x hx => hb x (List.mem_cons_of_mem b hx)

theorem inline_tag_byte :
    ∀ L, L < 8 → Nat.land (128 + 16 * L) 143 = 128 ∧
      Nat.shiftRight (Nat.land (128 + 16 * L) 112) 4 = L := by
  decide

theorem encodeInline_byte_zero (s : List Nat) (h : s.length < 8) :
    slotByte (encodeInline s) 0 = 128 + 16 * s.length := by
  simp only [encodeInline, leVal, slotByte, pow_zero, Nat.div_one]
  rw [Nat.add_mul_mod_self_left]
  exact Nat.mod_eq_of_lt (by omega)

theorem encodeInline_tag (s : List Nat) (h : s.length < 8) :
    isInlineTag (encodeInline s) = true := by
  simp only [isInlineTag]
  rw [encodeInline_byte_zero s h, (inline_tag_byte s.length h).1]
  rfl

theorem encodeInline_len (s : List Nat) (h : s.length < 8) :
    inlineLenOf (encodeInline s) = s.length := by
  simp only [inlineLenOf]
  rw [encodeInline_byte_zero s h]
  exact (inline_tag_byte s.length h).2

theorem map_getD_range (s : List Nat) :
    (List.range s.length).map (fun i => s.getD i 0) = s := by
  induction s with
  | nil => simp
  | cons a t ih =>
    rw [List.length_cons, List.range_succ_eq_map, List.map_cons, List.map_map]
    have hc : (fun i => (a :: t).getD i 0) ∘ Nat.succ = fun i => t.getD i 0 := by
      funext i
      simp
    rw [hc, ih]
    simp

theorem inlineContent_encode (s : List Nat) (h : s.length < 8)
    (hb : ∀ b ∈ s, b < 256) : inlineContent (encodeInline s) = s := by
  rw [inlineContent, encodeInline_len s h]
  have hall : ∀ b ∈ (128 + 16 * s.length) :: s, b < 256 := by
    intro b hmem
    rcases List.mem_cons.mp hmem with h1 | h2
    · omega
    · exact hb b h2
  have hdig : ∀ i, slotByte (encodeInline s) (i + 1) = s.getD i 0 := by
    intro i
    rw [encodeInline, leVal_digit _ _ hall]
    simp
  calc (List.range s.length).map (fun i => slotByte (encodeInline s) (i + 1))
      = (List.range s.length).map (fun i => s.getD i 0) :=
        List.map_congr_left fun i _ => hdig i
    _ = s := map_getD_range s

theorem joinLong_of_not_hasLong :
    ∀ ss : List (List Nat), hasLong ss = false → joinLong ss = [] := by
  intro ss
  induction ss with
  | nil => intro _; rfl
  | cons s rest ih =>
    intro h
    simp only [hasLong, List.any_cons, Bool.or_eq_false_iff,
      Bool.not_eq_false'] at h
    simp only [joinLong, if_pos (by simpa using h.1)]
    simpa [hasLong] using ih (by simpa [hasLong] using h.2)

theorem scanEnd_slotsOf :
    ∀ (ss : List (List Nat)) (base d : Nat), offsetsPatFree ss base = true →
    scanEnd (slotsOf ss base) d = if hasLong ss = true then base else d := by
  intro ss
  induction ss with
  | nil => intro base d _; simp [slotsOf, scanEnd, hasLong]
  | cons s rest ih =>
    intro base d hpat
    by_cases hs : s.length < 8
    · have hpat2 : offsetsPatFree rest base = true := by
        simpa [offsetsPatFree, hs] using hpat
      have htag : (!isInlineTag (encodeInline s)) = false := by
        rw [encodeInline_tag s hs]; rfl
      have hrec := ih base d hpat2
      simp only [scanEnd] at hrec
      simp only [slotsOf, if_pos hs, scanEnd, List.find?_cons, htag]
      rw [hrec]
      have hh : hasLong (s :: rest) = hasLong rest := by simp [hasLong, hs]
      rw [hh]
    · have hbase : (!isInlineTag base) = true := by
        have := hpat
        simp only [offsetsPatFree, if_neg hs, Bool.and_eq_true] at this
        exact this.1
      simp only [slotsOf, if_neg hs, scanEnd, List.find?_cons, hbase,
        Option.getD_some]
      have hh : hasLong (s :: rest) = true := by simp [hasLong, hs]
      rw [hh]
      rfl

theorem ffoldl_push_eq (ss : List (List Nat)) :
    ∀ c : FixedCompactBytestrings,
    ss.foldl FixedCompactBytestrings.push c =
      ⟨c.data ++ joinLong ss, c.starts ++ slotsOf ss c.data.length⟩ := by
  induction ss with
  | nil => intro c; simp [joinLong, slotsOf]
  | cons s rest ih =>
    intro c
    rw [List.foldl_cons]
    by_cases hs : s.length < 8
    · rw [show FixedCompactBytestrings.push c s
          = ⟨c.data, c.starts ++ [encodeInline s]⟩ by
        rw [FixedCompactBytestrings.push, if_pos hs]]
      rw [ih]
      simp [joinLong, slotsOf, hs, List.append_assoc]
    · rw [show FixedCompactBytestrings.push c s
          = ⟨c.data ++ s, c.starts ++ [c.data.length]⟩ by
        rw [FixedCompactBytestrings.push, if_neg hs]]
      rw [ih]
      simp [joinLong, slotsOf, hs, List.append_assoc]

theorem ffromList_eq (ss : List (List Nat)) :
    FixedCompactBytestrings.fromList ss = ⟨joinLong ss, slotsOf ss 0⟩ := by
  rw [FixedCompactBytestrings.fromList, ffoldl_push_eq]
  rfl

theorem fgetFrom_slotsOf :
    ∀ (ss : List (List Nat)) (data : List Nat) (base i : Nat),
    data.drop base = joinLong ss → base ≤ data.length →
    offsetsPatFree ss base = true → (∀ s ∈ ss, ∀ b ∈ s, b < 256) →
    FixedCompactBytestrings.getFrom data (slotsOf ss base) i = ss[i]? := by
  intro ss
  induction ss with
  | nil =>
    intro data base i _ _ _ _
    simp [slotsOf, FixedCompactBytestrings.getFrom]
  | cons s rest ih =>
    intro data base i h hb hpat hok
    have hokh : ∀ b ∈ s, b < 256 := hok s (List.mem_cons_self s rest)
    have hokt : ∀ t ∈ rest, ∀ b ∈ t, b < 256 :=
      fun t ht => hok t (List.mem_cons_of_mem s ht)
    by_cases hs : s.length < 8
    · have hpat2 : offsetsPatFree rest base = true := by
        simpa [offsetsPatFree, hs] using hpat
      have hjoin : data.drop base = joinLong rest := by
        simpa [joinLong, hs] using h
      cases i with
      | zero =>
        simp only [slotsOf, if_pos hs, FixedCompactBytestrings.getFrom,
          List.getElem?_cons_zero, encodeInline_tag s hs, if_pos]
        rw [inlineContent_encode s hs hokh]
      | succ n =>
        have := ih data base n hjoin hb hpat2 hokt
        simp only [slotsOf, if_pos hs, FixedCompactBytestrings.getFrom,
          List.getElem?_cons_succ, List.drop_succ_cons] at this ⊢
        exact this
    · have hpatc : (!isInlineTag base) = true ∧
          offsetsPatFree rest (base + s.length) = true := by
        have := hpat
        simp only [offsetsPatFree, if_neg hs, Bool.and_eq_true] at this
        exact this
      have hbase : isInlineTag base = false := by
        simpa using hpatc.1
      have hjoin : data.drop base = s ++ joinLong rest := by
        simpa [joinLong, hs] using h
      have hlen : data.length - base = s.length + (joinLong rest).length := by
        have := congrArg List.length hjoin
        simpa using this
      have hble : base + s.length ≤ data.length := by omega
      have hdrop : data.drop (base + s.length) = joinLong rest := by
        rw [← List.drop_drop, hjoin]
        exact List.drop_left s (joinLong rest)
      have hend : scanEnd (slotsOf rest (base + s.length)) data.length
          = base + s.length := by
        rw [scanEnd_slotsOf rest (base + s.length) data.length hpatc.2]
        by_cases hh : hasLong rest = true
        · rw [if_pos hh]
        · rw [if_neg hh]
          have hnil : joinLong rest = [] := joinLong_of_not_hasLong rest
            (Bool.eq_false_iff.mpr hh)
          rw [hnil] at hlen
          simp only [List.length_nil, Nat.add_zero] at hlen
          omega
      cases i with
      | zero =>
        simp only [slotsOf, if_neg hs, FixedCompactBytestrings.getFrom,
          List.getElem?_cons_zero, hbase, List.drop_succ_cons, List.drop_zero]
        rw [if_neg (by simp), hend, listSlice,
          if_pos ⟨Nat.le_add_right _ _, hble⟩]
        have hval : (data.drop base).take (base + s.length - base) = s := by
          rw [Nat.add_sub_cancel_left, hjoin]
          exact List.take_left s (joinLong rest)
        rw [hval]
      | succ n =>
        have := ih data (base + s.length) n hdrop hble hpatc.2 hokt
        simp only [slotsOf, if_neg hs, FixedCompactBytestrings.getFrom,
          List.getElem?_cons_succ, List.drop_succ_cons] at this ⊢
        exact this

theorem fget_fromList (ss : List (List Nat)) (i : Nat)
    (hpat : offsetsPatFree ss 0 = true) (hok : ∀ s ∈ ss, ∀ b ∈ s, b < 256) :
    FixedCompactBytestrings.get (FixedCompactBytestrings.fromList ss) i
      = ss[i]? := by
  rw [FixedCompactBytestrings.get, ffromList_eq]
  exact fgetFrom_slotsOf ss (joinLong ss) 0 i (by simp) (by simp) hpat hok

theorem fiterFrom_slotsOf :
    ∀ (ss : List (List Nat)) (data : List Nat) (base : Nat),
    data.drop base = joinLong ss → base ≤ data.length →
    offsetsPatFree ss base = true → (∀ s ∈ ss, ∀ b ∈ s, b < 256) →
    FixedCompactBytestrings.iterFrom data (slotsOf ss base) = ss := by
  intro ss
  induction ss with
  | nil =>
    intro data base _ _ _ _
    simp [slotsOf, FixedCompactBytestrings.iterFrom]
  | cons s rest ih =>
    intro data base h hb hpat hok
    have hokh : ∀ b ∈ s, b < 256 := hok s (List.mem_cons_self s rest)
    have hokt : ∀ t ∈ rest, ∀ b ∈ t, b < 256 :=
      fun t ht => hok t (List.mem_cons_of_mem s ht)
    by_cases hs : s.length < 8
    · have hpat2 : offsetsPatFree rest base = true := by
        simpa [offsetsPatFree, hs] using hpat
      have hjoin : data.drop base = joinLong rest := by
        simpa [joinLong, hs] using h
      simp only [slotsOf, if_pos hs, FixedCompactBytestrings.iterFrom,
        encodeInline_tag s hs, if_pos]
      rw [inlineContent_encode s hs hokh, ih data base hjoin hb hpat2 hokt]
    · have hpatc : (!isInlineTag base) = true ∧
          offsetsPatFree rest (base + s.length) = true := by
        have := hpat
        simp only [offsetsPatFree, if_neg hs, Bool.and_eq_true] at this
        exact this
      have hbase : isInlineTag base = false := by
        simpa using hpatc.1
      have hjoin : data.drop base = s ++ joinLong rest := by
        simpa [joinLong, hs] using h
      have hlen : data.length - base = s.length + (joinLong rest).length := by
        have := congrArg List.length hjoin
        simpa using this
      have hble : base + s.length ≤ data.length := by omega
      have hdrop : data.drop (base + s.length) = joinLong rest := by
        rw [← List.drop_drop, hjoin]
        exact List.drop_left s (joinLong rest)
      have hend : scanEnd (slotsOf rest (base + s.length)) data.length
          = base + s.length := by
        rw [scanEnd_slotsOf rest (base + s.length) data.length hpatc.2]
        by_cases hh : hasLong rest = true
        · rw [if_pos hh]
        · rw [if_neg hh]
          have hnil : joinLong rest = [] := joinLong_of_not_hasLong rest
            (Bool.eq_false_iff.mpr hh)
          rw [hnil] at hlen
          simp only [List.length_nil, Nat.add_zero] at hlen
          omega
      simp only [slotsOf, if_neg hs, FixedCompactBytestrings.iterFrom, hbase]
      rw [if_neg (by simp), hend, listSlice,
        if_pos ⟨Nat.le_add_right _ _, hble⟩]
      have hval : (data.drop base).take (base + s.length - base) = s := by
        rw [Nat.add_sub_cancel_left, hjoin]
        exact List.take_left s (joinLong rest)
      rw [hval]
      rw [ih data (base + s.length) hdrop hble hpatc.2 hokt]

theorem fiterList_fromList (ss : List (List Nat))
    (hpat : offsetsPatFree ss 0 = true) (hok : ∀ s ∈ ss, ∀ b ∈ s, b < 256) :
    FixedCompactBytestrings.iterList (FixedCompactBytestrings.fromList ss)
      = ss := by
  rw [FixedCompactBytestrings.iterList, ffromList_eq]
  exact fiterFrom_slotsOf ss (joinLong ss) 0 (by simp) (by simp) hpat hok

theorem slots_tag_iff :
    ∀ (ss : List (List Nat)) (base i : Nat), offsetsPatFree ss base = true →
    i < ss.length →
    (isInlineTag ((slotsOf ss base).getD i 0) = true ↔
      (ss.getD i []).length < 8) := by
  intro ss
  induction ss with
  | nil => intro base i _ hi; simp at hi
  | cons s rest ih =>
    intro base i hpat hi
    by_cases hs : s.length < 8
    · have hpat2 : offsetsPatFree rest base = true := by
        simpa [offsetsPatFree, hs] using hpat
      cases i with
      | zero =>
        simp only [slotsOf, if_pos hs, List.getD_cons_zero]
        simp [encodeInline_tag s hs, hs]
      | succ n =>
        simp only [slotsOf, if_pos hs, List.getD_cons_succ]
        exact ih base n hpat2 (by simpa using hi)
    · have hpatc : (!isInlineTag base) = true ∧
          offsetsPatFree rest (base + s.length) = true := by
        have := hpat
        simp only [offsetsPatFree, if_neg hs, Bool.and_eq_true] at this
        exact this
      cases i with
      | zero =>
        simp only [slotsOf, if_neg hs, List.getD_cons_zero]
        constructor
        · intro ht
          rw [ht] at hpatc
          simpa using hpatc.1
        · intro hlt
          exact absurd hlt hs
      | succ n =>
        simp only [slotsOf, if_neg hs, List.getD_cons_succ]
        exact ih (base + s.length) n hpatc.2 (by simpa using hi)

/-- C1: refuted on the code as written — removal consistency fails.  After
pushing `b"A"`, `b"BB"` into a fresh `CompactBytestrings` and calling
`remove(0)`, the single remaining element's bytes move to offset 0 but its
metadata entry still reads `(start 1, len 2)`, because the re-basing loop
subtracts the removed entry's `start` (0) instead of its `len` (1); `get 0`
consequently fails instead of returning `b"BB"`. -/
theorem C1_remove_rebase_bug :
    ((CompactBytestrings.fromList [[65], [66, 66]]).removeCore 0).meta
        = [⟨1, 2⟩] ∧
    ((CompactBytestrings.fromList [[65], [66, 66]]).removeCore 0).data
        = [66, 66] ∧
    ((CompactBytestrings.fromList [[65], [66, 66]]).removeCore 0).get 0
        = none := by
  decide

/-- C2: refuted on the code as written.  Removing index 0 from a
`FixedCompactBytestrings` holding two 8-byte strings and the inline string
`b"x"` (slot word 30864) scans for the element's end with `skip(index + 1)`
over the already-shortened slot vector, so it skips the true next offset
slot, computes length 16 instead of 8, splices all 16 data bytes away,
leaves the first subsequent offset slot (8) un-rebased, and subtracts the
length from the inline slot's word (30864 → 30848), corrupting it into an
empty inline string. -/
theorem C2_fixed_remove_bug :
    encodeInline [120] = 30864 ∧
    ((FixedCompactBytestrings.fromList
        [List.replicate 8 1, List.replicate 8 2, [120]]).removeCore 0).starts
        = [8, 30848] ∧
    ((FixedCompactBytestrings.fromList
        [List.replicate 8 1, List.replicate 8 2, [120]]).removeCore 0).data
        = [] ∧
    ((FixedCompactBytestrings.fromList
        [List.replicate 8 1, List.replicate 8 2, [120]]).removeCore 0).get 0
        = none ∧
    ((FixedCompactBytestrings.fromList
        [List.replicate 8 1, List.replicate 8 2, [120]]).removeCore 0).get 1
        = some [] := by
  decide

/-- C3 counterexample: the round-trip fails on the Packed-Metadata Engine
once the data buffer reaches 128 bytes.  Pushing a 128-byte string and then
an 8-byte string stores the second element as offset slot 128, whose low
byte `0x80` matches the inline tag pattern: forward iteration yields the
concatenation of both strings followed by an empty string instead of the two
pushed strings. -/
theorem C3_roundtrip_cex :
    (FixedCompactBytestrings.fromList
        [List.replicate 128 97, [49, 50, 51, 52, 53, 54, 55, 56]]).iterList
      = [List.replicate 128 97 ++ [49, 50, 51, 52, 53, 54, 55, 56], []] ∧
    [List.replicate 128 97 ++ [49, 50, 51, 52, 53, 54, 55, 56], []]
      ≠ [List.replicate 128 97, [49, 50, 51, 52, 53, 54, 55, 56]] := by
  decide

/-- C4 counterexample: tag soundness fails for an achievable buffer size.
After pushing a 128-byte string, an 8-byte string is stored as the plain
offset slot 128, which `get` decodes as an inline slot of length 0 and
returns the empty string instead of the stored 8 bytes. -/
theorem C4_tag_cex :
    (FixedCompactBytestrings.fromList
        [List.replicate 128 65, [1, 2, 3, 4, 5, 6, 7, 8]]).starts = [0, 128] ∧
    isInlineTag 128 = true ∧
    (FixedCompactBytestrings.fromList
        [List.replicate 128 65, [1, 2, 3, 4, 5, 6, 7, 8]]).get 1 = some [] ∧
    some ([] : List Nat) ≠ some [1, 2, 3, 4, 5, 6, 7, 8] := by
  decide

/-- C5: refuted on the code as written — the two iteration directions
disagree.  With a 133-byte string followed by an 8-byte string, the second
element's offset slot is 133 (low byte `0x85`): `next` requires the full
pattern `& 0b1000_1111 == 0b1000_0000` and correctly treats it as an offset,
but `next_back` tests only `& 0b1000_0000 != 0` and decodes it as an inline
string of length 0, so fully backward consumption yields an empty string and
then the entire 141-byte buffer instead of the reverse of forward
iteration. -/
theorem C5_iter_direction_bug :
    (FixedCompactBytestrings.fromList
        [List.replicate 133 97, [49, 50, 51, 52, 53, 54, 55, 56]]).iterList
      = [List.replicate 133 97, [49, 50, 51, 52, 53, 54, 55, 56]] ∧
    (FixedCompactBytestrings.fromList
        [List.replicate 133 97, [49, 50, 51, 52, 53, 54, 55, 56]]).backList
      = [[], List.replicate 133 97 ++ [49, 50, 51, 52, 53, 54, 55, 56]] ∧
    (FixedCompactBytestrings.fromList
        [List.replicate 133 97, [49, 50, 51, 52, 53, 54, 55, 56]]).backList
      ≠ ((FixedCompactBytestrings.fromList
        [List.replicate 133 97, [49, 50, 51, 52, 53, 54, 55, 56]]).iterList).reverse := by
  decide

/-- C6: refuted on the code as written — `Clone` for the Packed-Metadata
Engine is not an observational identity.  Cloning a container holding the
single inline string `b"abc"` stores the element's length 3 as the new slot
value (`meta.push(bytes.len())`), so the clone's `get 0` decodes slot 3 as
an offset and returns the empty slice `data[3..3]` instead of `b"abc"`. -/
theorem C6_fixed_clone_bug :
    (FixedCompactBytestrings.fromList [[97, 98, 99]]).get 0
        = some [97, 98, 99] ∧
    ((FixedCompactBytestrings.fromList [[97, 98, 99]]).clone).starts = [3] ∧
    ((FixedCompactBytestrings.fromList [[97, 98, 99]]).clone).get 0
        = some [] := by
  decide

/-- C7 counterexample: swap-removal consistency fails in a reachable state.
Push `"A" "B" "C" "D"`, `swap_remove(0)` (correct: elements become
`D B C`), then `swap_remove(1)`: the re-basing loop only visits metadata
positions `≥ 1`, so the entry for `D` at position 0 keeps `start 2` although
its bytes moved to offset 1; `get 0` fails instead of still returning
`"D"`. -/
theorem C7_swap_cex :
    ((LibCompactStrings.fromList [[65], [66], [67], [68]]).swapRemoveCore 0).get 0
        = some [68] ∧
    (((LibCompactStrings.fromList
        [[65], [66], [67], [68]]).swapRemoveCore 0).swapRemoveCore 1).len = 2 ∧
    (((LibCompactStrings.fromList
        [[65], [66], [67], [68]]).swapRemoveCore 0).swapRemoveCore 1).get 0
        = none := by
  decide

/-- C8 counterexample: in a state corrupted by the engine's buggy `remove`
(push `"X" "YY" "ZZZ"`, then `remove(1)`), `get 1` returns `None` although
the length is 2, so "get returns None exactly when the index is out of
bounds" fails over all reachable containers. -/
theorem C8_oob_cex :
    ((CompactBytestrings.fromList [[88], [89, 89], [90, 90, 90]]).removeCore 1).len
        = 2 ∧
    ((CompactBytestrings.fromList [[88], [89, 89], [90, 90, 90]]).removeCore 1).get 1
        = none := by
  decide

/-- C9 counterexample: the inline/offset boundary behaviour of `push` is not
sufficient for `get` to return the pushed content at every achievable buffer
size: pushing an 8-byte string onto a container whose buffer already holds
128 bytes stores offset slot 128, which `get` misdecodes as an empty inline
string. -/
theorem C9_boundary_cex :
    ((FixedCompactBytestrings.fromList [List.replicate 128 120]).push
        [65, 66, 67, 68, 69, 70, 71, 72]).data.length = 136 ∧
    ((FixedCompactBytestrings.fromList [List.replicate 128 120]).push
        [65, 66, 67, 68, 69, 70, 71, 72]).starts = [0, 128] ∧
    ((FixedCompactBytestrings.fromList [List.replicate 128 120]).push
        [65, 66, 67, 68, 69, 70, 71, 72]).get 1 = some [] ∧
    some ([] : List Nat) ≠ some [65, 66, 67, 68, 69, 70, 71, 72] := by
  decide

theorem metasOf_length : ∀ (ss : List (List Nat)) (base : Nat),
    (metasOf ss base).length = ss.length := by
  intro ss
  induction ss with
  | nil => intro base; rfl
  | cons s rest ih => intro base; simp [metasOf, ih]

theorem slotsOf_length : ∀ (ss : List (List Nat)) (base : Nat),
    (slotsOf ss base).length = ss.length := by
  intro ss
  induction ss with
  | nil => intro base; rfl
  | cons s rest ih =>
    intro base
    by_cases hs : s.length < 8 <;> simp [slotsOf, hs, ih]

theorem len_fromList (ss : List (List Nat)) :
    (CompactBytestrings.fromList ss).len = ss.length := by
  rw [fromList_eq]
  exact metasOf_length ss 0

theorem flen_fromList (ss : List (List Nat)) :
    (FixedCompactBytestrings.fromList ss).len = ss.length := by
  rw [ffromList_eq]
  exact slotsOf_length ss 0

theorem lsFoldl_push_eq (ss : List (List Nat)) : ∀ c : LibCompactStrings,
    ss.foldl LibCompactStrings.push c =
      ⟨c.data ++ ss.flatten, c.meta ++ metasOf ss c.data.length⟩ := by
  induction ss with
  | nil => intro c; simp [metasOf]
  | cons s rest ih =>
    intro c
    rw [List.foldl_cons, ih]
    simp [LibCompactStrings.push, metasOf, List.append_assoc]

theorem lsFromList_eq (ss : List (List Nat)) :
    LibCompactStrings.fromList ss = ⟨ss.flatten, metasOf ss 0⟩ := by
  rw [LibCompactStrings.fromList, lsFoldl_push_eq]
  rfl

theorem lsLen_fromList (ss : List (List Nat)) :
    (LibCompactStrings.fromList ss).len = ss.length := by
  rw [lsFromList_eq]
  exact metasOf_length ss 0

theorem lsGet_fromList (ss : List (List Nat)) (i : Nat) :
    LibCompactStrings.get (LibCompactStrings.fromList ss) i = ss[i]? := by
  rw [LibCompactStrings.get, lsFromList_eq]
  exact getFrom_metasOf ss ss.flatten 0 i (by simp) (by simp)

theorem guard_none_iff {α : Type} (c : Prop) [Decidable c] (x : α) :
    (if c then some x else none) = none ↔ ¬c := by
  by_cases h : c <;> simp [h]

/-- C3 (amended): the push-then-iterate round-trip holds unconditionally for
the Variable-Metadata Engine, and for the Packed-Metadata Engine under the
side condition forced by the counterexample: every offset slot stored while
pushing must avoid the inline tag bit pattern in its low byte — which holds
in particular whenever fewer than 128 bytes ever reach the data buffer. -/
theorem C3_roundtrip_amended (ss : List (List Nat))
    (hok : ∀ s ∈ ss, ∀ b ∈ s, b < 256)
    (hpat : offsetsPatFree ss 0 = true) :
    CompactBytestrings.iterList (CompactBytestrings.fromList ss) = ss ∧
    FixedCompactBytestrings.iterList (FixedCompactBytestrings.fromList ss)
      = ss :=
  ⟨iterList_fromList ss, fiterList_fromList ss hpat hok⟩

/-- C3 witness: a concrete mixed sequence (two offset-slot elements around
an inline element) satisfying the hypotheses round-trips through both
engines. -/
theorem C3_roundtrip_witness :
    (∀ s ∈ [[1, 2, 3, 4, 5, 6, 7, 8], [9], List.replicate 9 2],
      ∀ b ∈ s, b < 256) ∧
    offsetsPatFree [[1, 2, 3, 4, 5, 6, 7, 8], [9], List.replicate 9 2] 0
      = true ∧
    (CompactBytestrings.iterList (CompactBytestrings.fromList
        [[1, 2, 3, 4, 5, 6, 7, 8], [9], List.replicate 9 2])
      = [[1, 2, 3, 4, 5, 6, 7, 8], [9], List.replicate 9 2] ∧
    FixedCompactBytestrings.iterList (FixedCompactBytestrings.fromList
        [[1, 2, 3, 4, 5, 6, 7, 8], [9], List.replicate 9 2])
      = [[1, 2, 3, 4, 5, 6, 7, 8], [9], List.replicate 9 2]) :=
  ⟨by decide, by decide,
    C3_roundtrip_amended [[1, 2, 3, 4, 5, 6, 7, 8], [9], List.replicate 9 2]
      (by decide) (by decide)⟩

/-- C4 (amended): under the pattern-freedom side condition forced by the
counterexample, a slot decodes as inline exactly when the pushed element was
short enough to be stored inline; and an offset whose low byte stays below
128 can never carry the inline flag pattern (so the soundness claim does
hold while the data buffer stays below 128 bytes). -/
theorem C4_tag_amended (ss : List (List Nat)) (i : Nat)
    (hpat : offsetsPatFree ss 0 = true) (hi : i < ss.length) :
    (isInlineTag ((FixedCompactBytestrings.fromList ss).starts.getD i 0) = true
      ↔ (ss.getD i []).length < 8) ∧
    (∀ st : Nat, st % 256 < 128 → isInlineTag st = false) := by
  constructor
  · rw [ffromList_eq]
    exact slots_tag_iff ss 0 i hpat hi
  · intro st hst
    have h : ∀ y, y < 128 → Nat.land y 143 ≠ 128 := by decide
    simp only [isInlineTag, slotByte, pow_zero, Nat.div_one]
    exact beq_eq_false_iff_ne.mpr (h (st % 256) hst)

/-- C4 witness: an 8-byte element stored at offset 0 is decoded as an offset
slot, and no offset below 128 matches the flag pattern. -/
theorem C4_tag_witness :
    offsetsPatFree [[200, 201, 202, 203, 204, 205, 206, 207], [1, 2]] 0
      = true ∧
    (0 : Nat) < 2 ∧
    ((isInlineTag ((FixedCompactBytestrings.fromList
        [[200, 201, 202, 203, 204, 205, 206, 207], [1, 2]]).starts.getD 0 0)
        = true
      ↔ ([[200, 201, 202, 203, 204, 205, 206, 207],
          ([1, 2] : List Nat)].getD 0 []).length < 8) ∧
    (∀ st : Nat, st % 256 < 128 → isInlineTag st = false)) :=
  ⟨by decide, by decide,
    C4_tag_amended [[200, 201, 202, 203, 204, 205, 206, 207], [1, 2]] 0
      (by decide) (by decide)⟩

/-- C8 (amended): over containers populated by `push` (with the Packed
engine's offsets additionally avoiding the inline tag pattern), `get`
returns `None` exactly when the index is out of bounds and the stored
element otherwise, and every removal operation panics exactly when its index
is out of bounds — `none` here models the panic, which the source raises
before any mutation, so the container is unchanged in that case. -/
theorem C8_oob_amended (ss : List (List Nat)) (i : Nat)
    (hok : ∀ s ∈ ss, ∀ b ∈ s, b < 256)
    (hpat : offsetsPatFree ss 0 = true) :
    (CompactBytestrings.get (CompactBytestrings.fromList ss) i = none
      ↔ ss.length ≤ i) ∧
    (FixedCompactBytestrings.get (FixedCompactBytestrings.fromList ss) i
        = none ↔ ss.length ≤ i) ∧
    (LibCompactStrings.get (LibCompactStrings.fromList ss) i = none
      ↔ ss.length ≤ i) ∧
    (i < ss.length →
      CompactBytestrings.get (CompactBytestrings.fromList ss) i = ss[i]? ∧
      FixedCompactBytestrings.get (FixedCompactBytestrings.fromList ss) i
        = ss[i]? ∧
      LibCompactStrings.get (LibCompactStrings.fromList ss) i = ss[i]?) ∧
    (CompactBytestrings.removeChecked (CompactBytestrings.fromList ss) i
        = none ↔ ss.length ≤ i) ∧
    (CompactBytestrings.ignoreChecked (CompactBytestrings.fromList ss) i
        = none ↔ ss.length ≤ i) ∧
    (FixedCompactBytestrings.removeChecked
        (FixedCompactBytestrings.fromList ss) i = none ↔ ss.length ≤ i) ∧
    (LibCompactStrings.removeChecked (LibCompactStrings.fromList ss) i
        = none ↔ ss.length ≤ i) ∧
    (LibCompactStrings.ignoreChecked (LibCompactStrings.fromList ss) i
        = none ↔ ss.length ≤ i) ∧
    (LibCompactStrings.swapRemoveChecked (LibCompactStrings.fromList ss) i
        = none ↔ ss.length ≤ i) ∧
    (LibCompactStrings.swapIgnoreChecked (LibCompactStrings.fromList ss) i
        = none ↔ ss.length ≤ i) := by
  have hcb := get_fromList ss i
  have hf := fget_fromList ss i hpat hok
  have hls := lsGet_fromList ss i
  have hnone : (ss[i]? = none) ↔ ss.length ≤ i := List.getElem?_eq_none_iff
  refine ⟨by rw [hcb]; exact hnone, by rw [hf]; exact hnone,
    by rw [hls]; exact hnone, ?_, ?_, ?_, ?_, ?_, ?_, ?_, ?_⟩
  · intro hi
    exact ⟨hcb, hf, hls⟩
  · rw [CompactBytestrings.removeChecked, guard_none_iff, len_fromList]
    omega
  · rw [CompactBytestrings.ignoreChecked, guard_none_iff, len_fromList]
    omega
  · rw [FixedCompactBytestrings.removeChecked, guard_none_iff, flen_fromList]
    omega
  · rw [LibCompactStrings.removeChecked, guard_none_iff, lsLen_fromList]
    omega
  · rw [LibCompactStrings.ignoreChecked, guard_none_iff, lsLen_fromList]
    omega
  · rw [LibCompactStrings.swapRemoveChecked, guard_none_iff, lsLen_fromList]
    omega
  · rw [LibCompactStrings.swapIgnoreChecked, guard_none_iff, lsLen_fromList]
    omega

/-- C8 witness: a three-element container answers `get` at indices 1 and 5
and panics on removal exactly as the theorem states. -/
theorem C8_oob_witness :
    (∀ s ∈ [[1], [2, 2], List.replicate 8 3], ∀ b ∈ s, b < 256) ∧
    offsetsPatFree [[1], [2, 2], List.replicate 8 3] 0 = true ∧
    (CompactBytestrings.removeChecked
        (CompactBytestrings.fromList [[1], [2, 2], List.replicate 8 3]) 5
      = none ↔ [[1], [2, 2], List.replicate (8 : Nat) (3 : Nat)].length ≤ 5) ∧
    (CompactBytestrings.get
        (CompactBytestrings.fromList [[1], [2, 2], List.replicate 8 3]) 1
      = none ↔ [[1], [2, 2], List.replicate (8 : Nat) (3 : Nat)].length ≤ 1) :=
  ⟨by decide, by decide,
    (C8_oob_amended [[1], [2, 2], List.replicate 8 3] 5 (by decide)
      (by decide)).2.2.2.2.1,
    (C8_oob_amended [[1], [2, 2], List.replicate 8 3] 1 (by decide)
      (by decide)).1⟩

/-- C9 (amended): pushing a 7-byte string onto any container stores it
inline, leaves the data buffer unchanged, and `get` at the new index returns
it; pushing an 8-byte string stores a plain offset slot and grows the buffer
by exactly 8 bytes, and — under the side condition forced by the
counterexample, namely that the stored offset (the buffer length at push
time) does not carry the inline tag pattern, as is always the case below
128 bytes — `get` at the new index returns it byte-identically. -/
theorem C9_boundary_amended (c : FixedCompactBytestrings) (s7 s8 : List Nat)
    (h7 : s7.length = 7) (hb7 : ∀ b ∈ s7, b < 256) (h8 : s8.length = 8)
    (hpat : isInlineTag c.data.length = false) :
    (c.push s7).data = c.data ∧
    (c.push s7).starts = c.starts ++ [encodeInline s7] ∧
    (c.push s7).get c.starts.length = some s7 ∧
    (c.push s8).data.length = c.data.length + 8 ∧
    (c.push s8).starts = c.starts ++ [c.data.length] ∧
    (c.push s8).get c.starts.length = some s8 := by
  have hs7 : s7.length < 8 := by omega
  have hs8 : ¬s8.length < 8 := by omega
  have hpush7 : c.push s7 = ⟨c.data, c.starts ++ [encodeInline s7]⟩ := by
    rw [FixedCompactBytestrings.push, if_pos hs7]
  have hpush8 : c.push s8 = ⟨c.data ++ s8, c.starts ++ [c.data.length]⟩ := by
    rw [FixedCompactBytestrings.push, if_neg hs8]
  refine ⟨by rw [hpush7], by rw [hpush7], ?_, ?_, by rw [hpush8], ?_⟩
  · rw [hpush7, FixedCompactBytestrings.get, FixedCompactBytestrings.getFrom]
    simp only [List.getElem?_concat_length]
    rw [if_pos (encodeInline_tag s7 hs7), inlineContent_encode s7 hs7 hb7]
  · rw [hpush8]
    simp [h8]
  · rw [hpush8, FixedCompactBytestrings.get, FixedCompactBytestrings.getFrom]
    simp only [List.getElem?_concat_length]
    rw [if_neg (by simp [hpat])]
    have hdrop : (c.starts ++ [c.data.length]).drop (c.starts.length + 1)
        = [] := by
      apply List.drop_of_length_le
      simp
    rw [hdrop]
    have hend : scanEnd [] (c.data ++ s8).length = c.data.length + 8 := by
      simp [scanEnd, List.find?, h8]
    rw [hend, listSlice, if_pos ⟨Nat.le_add_right _ _, by simp [h8]⟩]
    rw [Nat.add_sub_cancel_left, List.drop_left]
    rw [← h8, List.take_length]

/-- C9 witness: `b"1234567"` and `b"12345678"` pushed onto a fresh
container behave exactly as the boundary description states. -/
theorem C9_boundary_witness :
    ([49, 50, 51, 52, 53, 54, 55] : List Nat).length = 7 ∧
    (∀ b ∈ ([49, 50, 51, 52, 53, 54, 55] : List Nat), b < 256) ∧
    ([49, 50, 51, 52, 53, 54, 55, 56] : List Nat).length = 8 ∧
    isInlineTag FixedCompactBytestrings.new.data.length = false ∧
    ((FixedCompactBytestrings.new.push [49, 50, 51, 52, 53, 54, 55]).data
        = FixedCompactBytestrings.new.data ∧
    (FixedCompactBytestrings.new.push [49, 50, 51, 52, 53, 54, 55]).starts
        = FixedCompactBytestrings.new.starts
          ++ [encodeInline [49, 50, 51, 52, 53, 54, 55]] ∧
    (FixedCompactBytestrings.new.push [49, 50, 51, 52, 53, 54, 55]).get
        FixedCompactBytestrings.new.starts.length
        = some [49, 50, 51, 52, 53, 54, 55] ∧
    (FixedCompactBytestrings.new.push [49, 50, 51, 52, 53, 54, 55, 56]).data.length
        = FixedCompactBytestrings.new.data.length + 8 ∧
    (FixedCompactBytestrings.new.push [49, 50, 51, 52, 53, 54, 55, 56]).starts
        = FixedCompactBytestrings.new.starts
          ++ [FixedCompactBytestrings.new.data.length] ∧
    (FixedCompactBytestrings.new.push [49, 50, 51, 52, 53, 54, 55, 56]).get
        FixedCompactBytestrings.new.starts.length
        = some [49, 50, 51, 52, 53, 54, 55, 56]) :=
  ⟨by decide, by decide, by decide, by decide,
    C9_boundary_amended FixedCompactBytestrings.new
      [49, 50, 51, 52, 53, 54, 55] [49, 50, 51, 52, 53, 54, 55, 56]
      (by decide) (by decide) (by decide) (by decide)⟩

/-- C10 counterexample: the validating conversion does not succeed "exactly
when every stored element is valid UTF-8".  Push the invalid element
`'a'*127 ++ [0xC3]` (truncated two-byte sequence) and then the invalid
8-byte element `[0xA9] ++ "1234567"` (stray continuation byte): the second
offset slot is 128, whose low byte matches the inline tag pattern, so the
conversion iterates `[s0 ++ s1, b""]` — both valid UTF-8, since `0xC3 0xA9`
joins into a valid code point at the seam — and returns `Ok` although both
stored elements are invalid. -/
theorem C10_tryfrom_cex :
    validUtf8 (List.replicate 127 97 ++ [195]) = false ∧
    validUtf8 [169, 49, 50, 51, 52, 53, 54, 55] = false ∧
    (FixedCompactStringsW.tryFrom (FixedCompactBytestrings.fromList
      [List.replicate 127 97 ++ [195],
        [169, 49, 50, 51, 52, 53, 54, 55]])).isSome = true := by
  decide

/-- C10 (amended): the fallible conversion validates what the engine
iterates, so for a `CompactBytestrings` populated by pushes, and for a
`FixedCompactBytestrings` populated by pushes whose offset slots avoid the
inline tag pattern (in particular while fewer than 128 bytes reach the
buffer), it succeeds exactly when every stored element is valid UTF-8 and on
success the wrapper returns exactly the stored elements.  Once an offset
slot collides with the tag pattern, iteration mis-reads the elements and the
conversion can succeed despite invalid stored elements, as the
counterexample shows.  UTF-8 validity itself is modelled from the spec,
since `core::str::from_utf8` is not part of this repository. -/
theorem C10_tryfrom_utf8 (ss : List (List Nat))
    (hok : ∀ s ∈ ss, ∀ b ∈ s, b < 256)
    (hpat : offsetsPatFree ss 0 = true) :
    ((CompactStringsW.tryFrom (CompactBytestrings.fromList ss)).isSome = true
      ↔ ∀ s ∈ ss, validUtf8 s = true) ∧
    (∀ w, CompactStringsW.tryFrom (CompactBytestrings.fromList ss) = some w →
      ∀ i, w.get i = ss[i]?) ∧
    ((FixedCompactStringsW.tryFrom
        (FixedCompactBytestrings.fromList ss)).isSome = true
      ↔ ∀ s ∈ ss, validUtf8 s = true) ∧
    (∀ w, FixedCompactStringsW.tryFrom (FixedCompactBytestrings.fromList ss)
        = some w → ∀ i, w.get i = ss[i]?) := by
  have hiter := iterList_fromList ss
  have hfiter := fiterList_fromList ss hpat hok
  refine ⟨?_, ?_, ?_, ?_⟩
  · rw [CompactStringsW.tryFrom, hiter]
    by_cases hall : ss.all validUtf8
    · simpa [hall] using List.all_eq_true.mp hall
    · have h2 : ¬∀ s ∈ ss, validUtf8 s = true :=
        fun hf => hall (List.all_eq_true.mpr hf)
      simp [hall, h2]
  · intro w hw i
    rw [CompactStringsW.tryFrom, hiter] at hw
    by_cases hall : ss.all validUtf8
    · rw [if_pos hall] at hw
      cases hw
      exact get_fromList ss i
    · rw [if_neg hall] at hw
      exact absurd hw (by simp)
  · rw [FixedCompactStringsW.tryFrom, hfiter]
    by_cases hall : ss.all validUtf8
    · simpa [hall] using List.all_eq_true.mp hall
    · have h2 : ¬∀ s ∈ ss, validUtf8 s = true :=
        fun hf => hall (List.all_eq_true.mpr hf)
      simp [hall, h2]
  · intro w hw i
    rw [FixedCompactStringsW.tryFrom, hfiter] at hw
    by_cases hall : ss.all validUtf8
    · rw [if_pos hall] at hw
      cases hw
      exact fget_fromList ss i hpat hok
    · rw [if_neg hall] at hw
      exact absurd hw (by simp)

/-- C10 witness: converting `["a", "€"]` (valid UTF-8, one element per
engine kind) succeeds, and converting a container holding the lone byte
`0xFF` fails, instantiating both directions of the equivalence. -/
theorem C10_tryfrom_utf8_witness :
    ((CompactStringsW.tryFrom
        (CompactBytestrings.fromList [[97], [226, 130, 172]])).isSome
      = true) ∧
    ((FixedCompactStringsW.tryFrom
        (FixedCompactBytestrings.fromList [[255]])).isSome = false) := by
  constructor
  · exact (C10_tryfrom_utf8 [[97], [226, 130, 172]] (by decide)
      (by decide)).1.mpr (by decide)
  · have h := (C10_tryfrom_utf8 [[255]] (by decide) (by decide)).2.2.1
    by_cases hs : (FixedCompactStringsW.tryFrom
        (FixedCompactBytestrings.fromList [[255]])).isSome = true
    · exact absurd (h.mp hs) (by decide)
    · simpa using hs

theorem sumTake_cons_succ (s : List Nat) (rest : List (List Nat)) (j : Nat) :
    sumTake (s :: rest) (j + 1) = s.length + sumTake rest j := by
  simp [sumTake]

theorem flatten_take_sumTake :
    ∀ (ss : List (List Nat)) (j : Nat),
    ss.flatten.take (sumTake ss j) = (ss.take j).flatten := by
  intro ss
  induction ss with
  | nil => intro j; simp [sumTake]
  | cons s rest ih =>
    intro j
    cases j with
    | zero => simp [sumTake]
    | succ n =>
      rw [sumTake_cons_succ]
      simp only [List.flatten_cons, List.take_succ_cons]
      rw [List.take_append, ih n]

theorem flatten_drop_sumTake :
    ∀ (ss : List (List Nat)) (j : Nat),
    ss.flatten.drop (sumTake ss j) = (ss.drop j).flatten := by
  intro ss
  induction ss with
  | nil => intro j; simp [sumTake]
  | cons s rest ih =>
    intro j
    cases j with
    | zero => simp [sumTake]
    | succ n =>
      rw [sumTake_cons_succ]
      simp only [List.flatten_cons, List.drop_succ_cons]
      rw [List.drop_append, ih n]

theorem sumTake_le : ∀ (ss : List (List Nat)) (j : Nat),
    sumTake ss j ≤ ss.flatten.length := by
  intro ss
  induction ss with
  | nil => intro j; simp [sumTake]
  | cons s rest ih =>
    intro j
    cases j with
    | zero => simp [sumTake]
    | succ n =>
      rw [sumTake_cons_succ]
      simp only [List.flatten_cons, List.length_append]
      have := ih n
      omega

theorem getElem?_eq_some_getD {α : Type} (l : List α) (j : Nat) (d : α)
    (h : j < l.length) : l[j]? = some (l.getD j d) := by
  rw [List.getElem?_eq_getElem h]
  rw [List.getD_eq_getElem?_getD, List.getElem?_eq_getElem h]
  rfl

theorem listSlice_flatten (ss : List (List Nat)) (j : Nat)
    (hj : j < ss.length) :
    listSlice ss.flatten (sumTake ss j) (sumTake ss j + (ss.getD j []).length)
      = some (ss.getD j []) := by
  have hdrop : ss.flatten.drop (sumTake ss j) = (ss.drop j).flatten :=
    flatten_drop_sumTake ss j
  have hcons : ss.drop j = ss.getD j [] :: ss.drop (j + 1) := by
    rw [List.drop_eq_getElem_cons hj]
    congr 1
    rw [List.getD_eq_getElem?_getD, List.getElem?_eq_getElem hj]
    rfl
  have hlen : ss.flatten.length - sumTake ss j
      = (ss.getD j []).length + (ss.drop (j + 1)).flatten.length := by
    have h1 := congrArg List.length hdrop
    rw [hcons] at h1
    simpa using h1
  have hst := sumTake_le ss j
  have hbound : sumTake ss j + (ss.getD j []).length ≤ ss.flatten.length := by
    omega
  rw [listSlice, if_pos ⟨Nat.le_add_right _ _, hbound⟩]
  rw [Nat.add_sub_cancel_left, hdrop, hcons]
  simp only [List.flatten_cons]
  rw [List.take_left]

theorem metasOf_getElem? :
    ∀ (ss : List (List Nat)) (base j : Nat), j < ss.length →
    (metasOf ss base)[j]?
      = some ⟨base + sumTake ss j, (ss.getD j []).length⟩ := by
  intro ss
  induction ss with
  | nil => intro base j hj; simp at hj
  | cons s rest ih =>
    intro base j hj
    cases j with
    | zero => simp [metasOf, sumTake]
    | succ n =>
      simp only [metasOf, List.getElem?_cons_succ, List.getD_cons_succ]
      rw [ih (base + s.length) n (by simpa using hj), sumTake_cons_succ]
      have : base + s.length + sumTake rest n
          = base + (s.length + sumTake rest n) := by omega
      rw [this]

theorem applyFrom_getElem? {α : Type} (f : α → α) :
    ∀ (l : List α) (i j : Nat),
    (applyFrom f i l)[j]? = if i ≤ j then (l[j]?).map f else l[j]? := by
  intro l
  induction l with
  | nil => intro i j; simp [applyFrom]
  | cons a rest ih =>
    intro i j
    cases i with
    | zero =>
      cases j with
      | zero => simp [applyFrom]
      | succ n => simp [applyFrom, ih 0 n]
    | succ m =>
      cases j with
      | zero =>
        simp only [applyFrom, List.getElem?_cons_zero]
        rw [if_neg (by omega)]
      | succ n =>
        simp only [applyFrom, List.getElem?_cons_succ]
        rw [ih m n]
        by_cases h : m ≤ n
        · rw [if_pos h, if_pos (by omega)]
        · rw [if_neg h, if_neg (by omega)]

theorem sumTake_eraseIdx_le :
    ∀ (ss : List (List Nat)) (i j : Nat), j ≤ i →
    sumTake (ss.eraseIdx i) j = sumTake ss j := by
  intro ss
  induction ss with
  | nil => intro i j h; simp
  | cons s rest ih =>
    intro i j h
    cases i with
    | zero =>
      have : j = 0 := by omega
      subst this
      simp [sumTake]
    | succ m =>
      cases j with
      | zero => simp [sumTake]
      | succ n =>
        rw [List.eraseIdx_cons_succ, sumTake_cons_succ, sumTake_cons_succ,
          ih m n (by omega)]

theorem sumTake_eraseIdx_ge :
    ∀ (ss : List (List Nat)) (i j : Nat), i < ss.length → i ≤ j →
    sumTake ss (j + 1)
      = sumTake (ss.eraseIdx i) j + (ss.getD i []).length := by
  intro ss
  induction ss with
  | nil => intro i j h _; simp at h
  | cons s rest ih =>
    intro i j hi hj
    cases i with
    | zero =>
      rw [List.eraseIdx_cons_zero, List.getD_cons_zero, sumTake_cons_succ]
      omega
    | succ m =>
      cases j with
      | zero => omega
      | succ n =>
        rw [List.eraseIdx_cons_succ, List.getD_cons_succ, sumTake_cons_succ,
          sumTake_cons_succ, ih m n (by simpa using hi) (by omega)]
        omega

theorem splice_flatten (ss : List (List Nat)) (i : Nat) (hi : i < ss.length) :
    ss.flatten.take (sumTake ss i)
      ++ ss.flatten.drop (sumTake ss i + (ss.getD i []).length)
      = (ss.eraseIdx i).flatten := by
  have hcons : ss.drop i = ss.getD i [] :: ss.drop (i + 1) := by
    rw [List.drop_eq_getElem_cons hi]
    congr 1
    rw [List.getD_eq_getElem?_getD, List.getElem?_eq_getElem hi]
    rfl
  have hdrop2 : ss.flatten.drop (sumTake ss i + (ss.getD i []).length)
      = (ss.drop (i + 1)).flatten := by
    rw [← List.drop_drop, flatten_drop_sumTake, hcons]
    simp only [List.flatten_cons]
    rw [List.drop_left]
  rw [flatten_take_sumTake, hdrop2, List.eraseIdx_eq_take_drop_succ,
    List.flatten_append]

theorem applyFrom_length {α : Type} (f : α → α) :
    ∀ (l : List α) (i : Nat), (applyFrom f i l).length = l.length := by
  intro l
  induction l with
  | nil => intro i; cases i <;> rfl
  | cons a rest ih =>
    intro i
    cases i with
    | zero => simp [applyFrom, ih 0]
    | succ m => simp [applyFrom, ih m]

theorem set_last_dropLast_getElem? {α : Type} (l : List α) (d : α) (i j : Nat)
    (hi : i < l.length) :
    ((l.set i (l.getD (l.length - 1) d)).dropLast)[j]? =
      if j < l.length - 1 then
        (if i = j then some (l.getD (l.length - 1) d) else l[j]?)
      else none := by
  rw [List.getElem?_dropLast, List.length_set, List.getElem?_set]
  by_cases hj : j < l.length - 1
  · rw [if_pos hj, if_pos hj]
    by_cases hij : i = j
    · rw [if_pos hij, if_pos hij, if_pos hi]
    · rw [if_neg hij, if_neg hij]
  · rw [if_neg hj, if_neg hj]

theorem getFrom_of_none {d : List Nat} {ms : List Metadata} {j : Nat}
    (h : ms[j]? = none) : CompactBytestrings.getFrom d ms j = none := by
  simp [CompactBytestrings.getFrom, h]

theorem getFrom_of_some {d : List Nat} {ms : List Metadata} {j : Nat}
    {m : Metadata} (h : ms[j]? = some m) :
    CompactBytestrings.getFrom d ms j
      = listSlice d m.start (m.start + m.len) := by
  simp [CompactBytestrings.getFrom, h]

/-- C7 (amended): on a `lib.rs CompactStrings` populated by pushes alone,
`swap_remove(i)` and `swap_ignore(i)` shrink the length by one and the
resulting elements are exactly the pushed sequence with the last element
moved to position `i` and the last position dropped: the former last element
appears at `i` (unless `i` was last) and every other element is unchanged.
The push-only restriction is forced by the counterexample: after one
`swap_remove`, metadata order no longer matches byte order and a second
`swap_remove` corrupts the container. -/
theorem C7_swap_amended (ss : List (List Nat)) (i : Nat) (hi : i < ss.length) :
    ((LibCompactStrings.fromList ss).swapRemoveCore i).len = ss.length - 1 ∧
    ((LibCompactStrings.fromList ss).swapIgnoreCore i).len = ss.length - 1 ∧
    (∀ j, ((LibCompactStrings.fromList ss).swapRemoveCore i).get j
      = ((ss.set i (ss.getD (ss.length - 1) [])).dropLast)[j]?) ∧
    (∀ j, ((LibCompactStrings.fromList ss).swapIgnoreCore i).get j
      = ((ss.set i (ss.getD (ss.length - 1) [])).dropLast)[j]?) := by
  have hn1 : ss.length - 1 < ss.length := by omega
  have hfl : LibCompactStrings.fromList ss = ⟨ss.flatten, metasOf ss 0⟩ :=
    lsFromList_eq ss
  have hMlen : (metasOf ss 0).length = ss.length := metasOf_length ss 0
  have hMget : ∀ k, k < ss.length → (metasOf ss 0)[k]?
      = some ⟨sumTake ss k, (ss.getD k []).length⟩ := by
    intro k hk
    rw [metasOf_getElem? ss 0 k hk]
    simp
  have hMgetD : ∀ k, k < ss.length → (metasOf ss 0).getD k ⟨0, 0⟩
      = ⟨sumTake ss k, (ss.getD k []).length⟩ := by
    intro k hk
    rw [List.getD_eq_getElem?_getD, hMget k hk]
    rfl
  have hElen : (ss.eraseIdx i).length = ss.length - 1 := by
    rw [List.length_eraseIdx]
    simp [hi]
  have hEgetD_lt : ∀ j, j < i → (ss.eraseIdx i).getD j [] = ss.getD j [] := by
    intro j hj
    rw [List.getD_eq_getElem?_getD, List.getD_eq_getElem?_getD,
      List.getElem?_eraseIdx, if_pos hj]
  have hEgetD_ge : ∀ j, i ≤ j →
      (ss.eraseIdx i).getD j [] = ss.getD (j + 1) [] := by
    intro j hj
    rw [List.getD_eq_getElem?_getD, List.getD_eq_getElem?_getD,
      List.getElem?_eraseIdx, if_neg (by omega)]
  have hsw : ∀ j, (listSwapRemove (metasOf ss 0) i)[j]? =
      if j < ss.length - 1 then
        (if i = j then some ⟨sumTake ss (ss.length - 1),
          (ss.getD (ss.length - 1) []).length⟩ else (metasOf ss 0)[j]?)
      else none := by
    intro j
    simp only [listSwapRemove]
    rw [set_last_dropLast_getElem? (metasOf ss 0) ⟨0, 0⟩ i j (by omega),
      hMlen, hMgetD (ss.length - 1) hn1]
  have hR : ∀ j, ((ss.set i (ss.getD (ss.length - 1) [])).dropLast)[j]? =
      if j < ss.length - 1 then
        (if i = j then some (ss.getD (ss.length - 1) []) else ss[j]?)
      else none := fun j => set_last_dropLast_getElem? ss [] i j hi
  refine ⟨?_, ?_, ?_, ?_⟩
  · rw [hfl]
    simp only [LibCompactStrings.swapRemoveCore, LibCompactStrings.len,
      applyFrom_length, listSwapRemove, List.length_dropLast,
      List.length_set, hMlen]
  · rw [hfl]
    simp only [LibCompactStrings.swapIgnoreCore, LibCompactStrings.len,
      listSwapRemove, List.length_dropLast, List.length_set, hMlen]
  · intro j
    rw [hfl]
    simp only [LibCompactStrings.swapRemoveCore, LibCompactStrings.get,
      hMgetD i hi]
    rw [hR j, splice_flatten ss i hi]
    by_cases hj : j < ss.length - 1
    · by_cases hij : i = j
      · have hin2 : i ≤ ss.length - 2 := by omega
        have hentry : (applyFrom
            (fun mm => ⟨mm.start - (ss.getD i []).length, mm.len⟩) i
            (listSwapRemove (metasOf ss 0) i))[j]?
            = some ⟨sumTake ss (ss.length - 1) - (ss.getD i []).length,
                (ss.getD (ss.length - 1) []).length⟩ := by
          rw [applyFrom_getElem?, if_pos (by omega), hsw j, if_pos hj,
            if_pos hij]
          rfl
        rw [getFrom_of_some hentry, if_pos hj, if_pos hij]
        have hsum := sumTake_eraseIdx_ge ss i (ss.length - 2) hi hin2
        have h2 : ss.length - 2 + 1 = ss.length - 1 := by omega
        rw [h2] at hsum
        have hsum2 : sumTake ss (ss.length - 1) - (ss.getD i []).length
            = sumTake (ss.eraseIdx i) (ss.length - 2) := by omega
        have hEg : (ss.eraseIdx i).getD (ss.length - 2) []
            = ss.getD (ss.length - 1) [] := by
          rw [hEgetD_ge (ss.length - 2) hin2, h2]
        rw [hsum2, ← hEg]
        exact listSlice_flatten (ss.eraseIdx i) (ss.length - 2) (by omega)
      · by_cases hle : i ≤ j
        · have hij2 : i < j := by omega
          have hentry : (applyFrom
              (fun mm => ⟨mm.start - (ss.getD i []).length, mm.len⟩) i
              (listSwapRemove (metasOf ss 0) i))[j]?
              = some ⟨sumTake ss j - (ss.getD i []).length,
                  (ss.getD j []).length⟩ := by
            rw [applyFrom_getElem?, if_pos hle, hsw j, if_pos hj,
              if_neg hij, hMget j (by omega)]
            rfl
          rw [getFrom_of_some hentry, if_pos hj, if_neg hij]
          have hsum := sumTake_eraseIdx_ge ss i (j - 1) hi (by omega)
          have hj1 : j - 1 + 1 = j := by omega
          rw [hj1] at hsum
          have hsum2 : sumTake ss j - (ss.getD i []).length
              = sumTake (ss.eraseIdx i) (j - 1) := by omega
          have hEg : (ss.eraseIdx i).getD (j - 1) [] = ss.getD j [] := by
            rw [hEgetD_ge (j - 1) (by omega), hj1]
          rw [getElem?_eq_some_getD ss j [] (by omega), hsum2, ← hEg]
          exact listSlice_flatten (ss.eraseIdx i) (j - 1) (by omega)
        · have hentry : (applyFrom
              (fun mm => ⟨mm.start - (ss.getD i []).length, mm.len⟩) i
              (listSwapRemove (metasOf ss 0) i))[j]?
              = some ⟨sumTake ss j, (ss.getD j []).length⟩ := by
            rw [applyFrom_getElem?, if_neg hle, hsw j, if_pos hj,
              if_neg hij, hMget j (by omega)]
          rw [getFrom_of_some hentry, if_pos hj, if_neg hij]
          rw [getElem?_eq_some_getD ss j [] (by omega)]
          rw [← sumTake_eraseIdx_le ss i j (by omega),
            ← hEgetD_lt j (by omega)]
          exact listSlice_flatten (ss.eraseIdx i) j (by omega)
    · have hentry : (applyFrom
          (fun mm => ⟨mm.start - (ss.getD i []).length, mm.len⟩) i
          (listSwapRemove (metasOf ss 0) i))[j]? = none := by
        rw [applyFrom_getElem?, hsw j, if_neg hj]
        by_cases hle : i ≤ j
        · rw [if_pos hle]
          rfl
        · rw [if_neg hle]
      rw [getFrom_of_none hentry, if_neg hj]
  · intro j
    rw [hfl]
    simp only [LibCompactStrings.swapIgnoreCore, LibCompactStrings.get]
    rw [hR j]
    by_cases hj : j < ss.length - 1
    · by_cases hij : i = j
      · rw [getFrom_of_some (by rw [hsw j, if_pos hj, if_pos hij])]
        rw [if_pos hj, if_pos hij]
        exact listSlice_flatten ss (ss.length - 1) hn1
      · rw [getFrom_of_some
          (by rw [hsw j, if_pos hj, if_neg hij, hMget j (by omega)])]
        rw [if_pos hj, if_neg hij, getElem?_eq_some_getD ss j [] (by omega)]
        exact listSlice_flatten ss j (by omega)
    · rw [getFrom_of_none (by rw [hsw j, if_neg hj]), if_neg hj]

/-- C7 witness: one `swap_remove(1)` and one `swap_ignore(1)` on the pushed
sequence `"A" "B" "C" "D"` behave as the amended claim states. -/
theorem C7_swap_witness :
    (1 : Nat) < ([[65], [66], [67], [68]] : List (List Nat)).length ∧
    (((LibCompactStrings.fromList [[65], [66], [67], [68]]).swapRemoveCore 1).len
        = 3 ∧
      ((LibCompactStrings.fromList [[65], [66], [67], [68]]).swapRemoveCore 1).get 1
        = some [68] ∧
      ((LibCompactStrings.fromList [[65], [66], [67], [68]]).swapIgnoreCore 1).get 2
        = some [67]) := by
  have h := C7_swap_amended [[65], [66], [67], [68]] 1 (by decide)
  refine ⟨by decide, h.1, ?_, ?_⟩
  · rw [h.2.2.1 1]
    decide
  · rw [h.2.2.2 2]
    decide
